import Mathlib

/-!
Shallow embedding of the per-key token-bucket rate limiter implemented in
`ratelimiter.go` (package `ratelimiter`), together with theorems settling the
specification claims about it.

Modelling conventions:
* `time.Time` values are exact rationals measured in seconds; `float64`
  arithmetic (`tokenRate` and the products computed from it) is idealised as
  exact rational arithmetic, which is also the language the package's own
  comments and its specification reason in.
* Go's `uint` is `Nat`.  The conversion `uint(x)` from `float64` is modelled
  for the range in which the Go specification defines it (see `uintOfFloat`);
  `validate` exists precisely to keep the program's arithmetic inside that
  range.
* The `sync.Map` field `m` is threaded through explicitly as a `Store`; the
  `done` channel is modelled by `doneChan`.
* Concurrency is modelled by an interleaving machine (`stepThread`, `stepC`,
  `runC`): each atomic step of one in-flight `Allow` call performs exactly one
  `sync.Map` operation plus the local computation around it, and a schedule
  picks which call steps next and what `now()` returns at that step.
-/

namespace RateLimiter

/-- Retry bound of the optimistic-retry loop in `Allow`
(`const maxCASRetries = 100`, line 10). -/
def maxCASRetries : Nat := 100

/-- Go's `math.MaxUint` on a 64-bit target: `2 ^ 64 - 1`. -/
def maxUint : Nat := 2 ^ 64 - 1

/-- Per-key state, `type bucket struct` (lines 14–18): `tokens uint`,
`lastRefill time.Time`, `lastActivity time.Time`. -/
structure bucket where
  tokens : Nat
  lastRefill : ℚ
  lastActivity : ℚ
  deriving DecidableEq, Repr

/-- Configuration part of `type rateLimiter struct` (lines 20–26):
`tokenRate float64`, `burstSize uint`.  The `sync.Map` field `m` is passed
around explicitly as a `Store`, and the `done` channel is `doneChan` below. -/
structure rateLimiter where
  tokenRate : ℚ
  burstSize : Nat
  deriving DecidableEq, Repr

/-- The `sync.Map` restricted to the `string → bucket` entries this program
stores in it, as an association list; the program never creates a second
binding for a key that is present (`LoadOrStore` inserts only when absent). -/
abbrev Store := List (String × bucket)

namespace SyncMap

/-- `sync.Map.Load`. -/
def Load : Store → String → Option bucket
  | [], _ => none
  | (k', b) :: s, k => if k' = k then some b else Load s k

/-- Replace the binding of a present key (the write half of
`CompareAndSwap`). -/
def replace : Store → String → bucket → Store
  | [], _, _ => []
  | (k', b') :: s, k, b => if k' = k then (k, b) :: s else (k', b') :: replace s k b

/-- `sync.Map.LoadOrStore`: returns `(actual, loaded, store)`; it stores the
candidate only when the key is absent, and `loaded = false` reports that the
candidate was stored (the caller won the insertion race). -/
def LoadOrStore (s : Store) (k : String) (b : bucket) : bucket × Bool × Store :=
  match Load s k with
  | some b' => (b', true, s)
  | none => (b, false, (k, b) :: s)

/-- `sync.Map.CompareAndSwap`: swaps to the new value only when the key is
present and its current value equals the expected old value (Go compares the
comparable struct `bucket` by field-wise equality). -/
def CompareAndSwap (s : Store) (k : String) (old new : bucket) : Bool × Store :=
  match Load s k with
  | some cur => if cur = old then (true, replace s k new) else (false, s)
  | none => (false, s)

end SyncMap

/-- Go's conversion `uint(x)` of a `float64`, on the range where the Go
specification defines its result: truncation toward zero, so every `x > -1`
that fits in a `uint` truncates to `⌊x⌋` clamped at `0`.  (For `x ≤ -1` or
`x > MaxUint` the Go specification makes the result implementation-specific;
`validate` bounds `tokenRate` and the runtime's monotonic clock keeps elapsed
time non-negative exactly so that `Allow` stays inside the defined range.) -/
def uintOfFloat (x : ℚ) : Nat := (Int.floor x).toNat

/-- Line 111 of `Allow`:
`newTokens := min(r.burstSize, uint(r.tokenRate*timeElapsed.Seconds())+buck.tokens)`
with `timeElapsed = t.Sub(buck.lastRefill)` from line 109. -/
def newTokens (r : rateLimiter) (buck : bucket) (t : ℚ) : Nat :=
  min r.burstSize (uintOfFloat (r.tokenRate * (t - buck.lastRefill)) + buck.tokens)

/-- Lines 109–115 of `Allow`: refill the bucket, moving `lastRefill` to `t`
only when the token count actually changed (`if buck.tokens != newTokens`). -/
def refill (r : rateLimiter) (buck : bucket) (t : ℚ) : bucket :=
  let nt := newTokens r buck t
  if buck.tokens = nt then buck else { buck with tokens := nt, lastRefill := t }

/-- Lines 117–124 of `Allow`: after the refill, if a token is available then
record the activity time and consume one token, returning the bucket to be
written back; otherwise report that the request is denied (`none`).
`lastActivity` is written only on this allow path, never on a denial. -/
def tryConsume (r : rateLimiter) (buck : bucket) (t : ℚ) : Option bucket :=
  let rb := refill r buck t
  if 0 < rb.tokens then some { rb with lastActivity := t, tokens := rb.tokens - 1 }
  else none

/-- `Allow` (lines 75–137) for a single uncontended call.  With no concurrent
writer, `LoadOrStore` on an absent key always stores its candidate and
`CompareAndSwap` always succeeds (the loaded value is still current), so the
retry loop runs exactly one iteration; the loop under interference is modelled
by `stepThread` below.  `t1` is the `now()` sample of line 81 and `t2` the
re-sample of line 101. -/
def Allow (r : rateLimiter) (s : Store) (key : String) (t1 t2 : ℚ) : Bool × Store :=
  if r.burstSize = 0 then (false, s)
  else
    match SyncMap.Load s key with
    | none =>
      (true, (SyncMap.LoadOrStore s key ⟨r.burstSize - 1, t1, t1⟩).2.2)
    | some buck =>
      match tryConsume r buck t2 with
      | some nb => (true, (SyncMap.CompareAndSwap s key buck nb).2)
      | none => (false, s)

/-- `validate` (lines 143–167), with the `float64` comparisons idealised as
exact rational arithmetic and `math.MaxUint` as `2 ^ 64 - 1`.  Returns
`some errorMessage` exactly when the Go function returns a non-nil error. -/
def validate (tokenRate : ℚ) (burstSize : Nat) : Option String :=
  if tokenRate < 0 then some "token rate should not be negative"
  else if (maxUint : ℚ) < tokenRate * 5000 then some "token rate limit overflow"
  else if ((maxUint - burstSize : Nat) : ℚ) / 5000 < tokenRate then some "limit overflow"
  else none

/-- `New` (lines 31–73): validate, then hand out the limiter configuration
with an empty store.  The background sweeper goroutine started here only
performs evictions and is outside the claims below; the `done` channel it
selects on is modelled by `doneChan`. -/
def New (tokenRate : ℚ) (burstSize : Nat) : Except String rateLimiter :=
  match validate tokenRate burstSize with
  | some e => .error e
  | none => .ok ⟨tokenRate, burstSize⟩

/-- State of the one-shot signal channel `done`. -/
inductive doneChan where
  | opened
  | closed
  deriving DecidableEq, Repr

/-- Go's builtin `close` on the signal channel: closing an open channel
succeeds; closing an already-closed channel is a run-time panic
("close of closed channel"), modelled as `Except.error`. -/
def closeChan : doneChan → Except String doneChan
  | .opened => .ok .closed
  | .closed => .error "close of closed channel"

/-- `Close` (lines 139–141): `close(r.done)`. -/
def Close (c : doneChan) : Except String doneChan := closeChan c

/-- Control point of one in-flight `Allow(key)` call inside the retry loop.
`fuel` counts the loop iterations still available, the current one included. -/
inductive TPhase where
  | running (fuel : Nat)
  | creating (fresh : bucket) (fuel : Nat)
  | loaded (snap : bucket) (fuel : Nat)
  | finished (res : Bool)
  deriving DecidableEq, Repr

/-- One in-flight `Allow` call: the key it was invoked with and its control
point. -/
structure Thread where
  key : String
  ph : TPhase
  deriving DecidableEq, Repr

/-- Shared state of the interleaving machine: the `sync.Map` plus every
call's control point. -/
structure CState where
  store : Store
  threads : List Thread
  deriving DecidableEq, Repr

/-- One atomic step of a single `Allow` call (lines 75–137).  Each step
performs exactly one `sync.Map` operation (`Load`, `LoadOrStore` or
`CompareAndSwap`) together with the purely local computation around it; `t`
is the value `now()` returns during this step, supplied by the schedule (the
schedule's times are unconstrained, so stale samples are also covered). -/
def stepThread (r : rateLimiter) (s : Store) (key : String) (t : ℚ) :
    TPhase → TPhase × Store
  | .running 0 => (.finished false, s)
  | .running (fuel + 1) =>
    if r.burstSize = 0 then (.finished false, s)
    else
      match SyncMap.Load s key with
      | some buck => (.loaded buck (fuel + 1), s)
      | none => (.creating ⟨r.burstSize - 1, t, t⟩ (fuel + 1), s)
  | .creating fresh fuel =>
    match SyncMap.LoadOrStore s key fresh with
    | (_, false, s') => (.finished true, s')
    | (actual, true, _) => (.loaded actual fuel, s)
  | .loaded snap fuel =>
    match tryConsume r snap t with
    | none => (.finished false, s)
    | some nb =>
      match SyncMap.CompareAndSwap s key snap nb with
      | (true, s') => (.finished true, s')
      | (false, _) => (.running (fuel - 1), s)
  | .finished res => (.finished res, s)

/-- Run the call scheduled by `ev = (i, t)` for one atomic step; an index
outside the thread pool is a no-op. -/
def stepC (r : rateLimiter) (c : CState) (ev : Nat × ℚ) : CState :=
  match c.threads.get? ev.1 with
  | none => c
  | some th =>
    let p := stepThread r c.store th.key ev.2 th.ph
    { store := p.2, threads := c.threads.set ev.1 { th with ph := p.1 } }

/-- Run a whole schedule, one atomic step at a time. -/
def runC (r : rateLimiter) (c : CState) (sched : List (Nat × ℚ)) : CState :=
  sched.foldl (stepC r) c

/-- Fresh machine: the store empty, one not-yet-started `Allow` call per key
in `ks`. -/
def initC (ks : List String) : CState :=
  ⟨[], ks.map fun k => ⟨k, .running maxCASRetries⟩⟩

/-- Bool test for a call that has returned. -/
def TPhase.isFinished : TPhase → Bool
  | .finished _ => true
  | _ => false

/-- Number of calls that have returned `true` (allowed). -/
def countAllows (ths : List Thread) : Nat :=
  ths.countP fun th => decide (th.ph = TPhase.finished true)

/-- The invariant claim C2 talks about, for the interleaving machine: every
bucket in the map is bounded by `burstSize`, and so is the candidate bucket of
every call that is between its failed `Load` and its `LoadOrStore` (that
candidate is always built as `burstSize − 1` at line 86). -/
def StoreBounded (r : rateLimiter) (c : CState) : Prop :=
  (∀ p ∈ c.store, p.2.tokens ≤ r.burstSize) ∧
  (∀ th ∈ c.threads, ∀ fresh fuel,
    th.ph = TPhase.creating fresh fuel → fresh.tokens ≤ r.burstSize)

/-- Per-call invariant for claim C3, parameterised by the burst size `N`
(equal to the number of calls), the shared key `k`, the current store and the
current number `A` of calls that have already returned allow.
`maxCASRetries + 1 ≤ fuel + A` says: every loop iteration this call has burned
is matched by some other call's successful write. -/
def PhaseInv (N : Nat) (k : String) (st : Store) (A : Nat) : TPhase → Prop
  | .running fuel =>
      (st = [] → fuel = maxCASRetries) ∧ (st ≠ [] → maxCASRetries + 1 ≤ fuel + A)
  | .creating fresh fuel => fresh.tokens = N - 1 ∧ fuel = maxCASRetries
  | .loaded snap fuel =>
      (∃ b, st = [(k, b)]) ∧
      (st = [(k, snap)] → maxCASRetries + 1 ≤ fuel + A) ∧
      (st ≠ [(k, snap)] → maxCASRetries + 2 ≤ fuel + A) ∧
      N ≤ snap.tokens + A ∧ 1 ≤ fuel
  | .finished res => res = true

/-- Store half of the C3 invariant: before the creation the store is empty and
nobody has been allowed; afterwards the single bucket for `k` has lost at most
one token per allowed call. -/
def StoreInvC (N : Nat) (k : String) (A : Nat) (st : Store) : Prop :=
  (st = [] ∧ A = 0) ∨
  (∃ b, st = [(k, b)] ∧ N ≤ b.tokens + A ∧ b.tokens ≤ N ∧ 1 ≤ A)

/-- Global invariant for `N` concurrent `Allow(k)` calls with burst `N`. -/
def InvC (N : Nat) (k : String) (c : CState) : Prop :=
  c.threads.length = N ∧
  (∀ th ∈ c.threads, th.key = k) ∧
  StoreInvC N k (countAllows c.threads) c.store ∧
  (∀ th ∈ c.threads, PhaseInv N k c.store (countAllows c.threads) th.ph)

/-- An adversarial schedule for 102 concurrent `Allow("k")` calls with
`burstSize = 102`: call 1 creates the bucket (101 tokens left); then, one
hundred times over, call 0 loads a snapshot, call `j + 2` runs a complete
load/consume/`CompareAndSwap` cycle (invalidating that snapshot), and call 0's
`CompareAndSwap` fails, burning one of its `maxCASRetries = 100` loop
iterations; the final step makes call 0 exhaust the retry bound and return
deny even though a token is still available. -/
def c3CexSched : List (Nat × ℚ) :=
  [(1, 0), (1, 0)] ++
    (List.flatten ((List.range 100).map fun j => [(0, 0), (j + 2, 0), (j + 2, 0), (0, 0)])) ++
    [(0, 0)]

/-- Sequence of sequential `Allow` calls on one key: each element of `ts`
supplies the two `now()` samples of one call, and the store produced by a call
is fed to the next one.  Returns the list of verdicts. -/
def runCalls (r : rateLimiter) (key : String) : Store → List (ℚ × ℚ) → List Bool
  | _, [] => []
  | s, tt :: ts =>
    let p := Allow r s key tt.1 tt.2
    p.1 :: runCalls r key p.2 ts

/-! ## Helper lemmas about the store operations and the refill algorithm -/

theorem refill_def (r : rateLimiter) (b : bucket) (t : ℚ) :
    refill r b t =
      if b.tokens = newTokens r b t then b else ⟨newTokens r b t, t, b.lastActivity⟩ := rfl

theorem tryConsume_def (r : rateLimiter) (b : bucket) (t : ℚ) :
    tryConsume r b t =
      if 0 < (refill r b t).tokens then
        some ⟨(refill r b t).tokens - 1, (refill r b t).lastRefill, t⟩
      else none := rfl

theorem SyncMap.Load_mem {s : Store} {k : String} {b : bucket}
    (h : SyncMap.Load s k = some b) : (k, b) ∈ s := by
  induction s with
  | nil => simp [SyncMap.Load] at h
  | cons p rest ih =>
    obtain ⟨k', b'⟩ := p
    by_cases hk : k' = k
    · subst hk
      simp [SyncMap.Load] at h
      simp [h]
    · simp [SyncMap.Load, hk] at h
      exact List.mem_cons_of_mem _ (ih h)

theorem SyncMap.Load_replace_self {s : Store} {k : String} {b x : bucket}
    (h : SyncMap.Load s k = some b) :
    SyncMap.Load (SyncMap.replace s k x) k = some x := by
  induction s with
  | nil => simp [SyncMap.Load] at h
  | cons p rest ih =>
    obtain ⟨k', b'⟩ := p
    by_cases hk : k' = k
    · subst hk
      simp [SyncMap.Load, SyncMap.replace]
    · simp [SyncMap.Load, hk] at h
      simp [SyncMap.Load, SyncMap.replace, hk, ih h]

theorem SyncMap.mem_replace {s : Store} {k : String} {x : bucket} {p : String × bucket}
    (h : p ∈ SyncMap.replace s k x) : p = (k, x) ∨ p ∈ s := by
  induction s with
  | nil => simp [SyncMap.replace] at h
  | cons q rest ih =>
    obtain ⟨k', b'⟩ := q
    by_cases hk : k' = k
    · subst hk
      simp [SyncMap.replace] at h
      rcases h with h | h
      · exact Or.inl h
      · exact Or.inr (List.mem_cons_of_mem _ h)
    · simp [SyncMap.replace, hk] at h
      rcases h with h | h
      · exact Or.inr (by simp [h])
      · rcases ih h with h' | h'
        · exact Or.inl h'
        · exact Or.inr (List.mem_cons_of_mem _ h')

/-! ## C7: a zero-capacity limiter denies everything -/

/-- C7.  If `burstSize = 0`, every `Allow` call returns `false` at the
line-76 short-circuit, for every key and every store: no store operation is
performed (the result does not depend on the store at all) and the store —
in particular, the set of buckets in it — is returned unchanged. -/
theorem burst_zero_always_denies (r : rateLimiter) (s : Store) (key : String)
    (t1 t2 : ℚ) (h : r.burstSize = 0) : Allow r s key t1 t2 = (false, s) := by
  simp [Allow, h]

/-- Witness for `burst_zero_always_denies`: the spec's own scenario
`New(10, 0)`, any key. -/
theorem burst_zero_always_denies_w :
    Allow ⟨10, 0⟩ [] "any-key" 0 0 = (false, []) :=
  burst_zero_always_denies ⟨10, 0⟩ [] "any-key" 0 0 rfl

/-! ## C8: denials never write -/

/-- C8.  Whenever `Allow` returns `false`, the store is returned exactly as it
was: no bucket is replaced or created, so the stored bucket — including its
`lastActivity` time — is unchanged by a denial (`lastActivity` is only written
inside the allow branch of `tryConsume`). -/
theorem deny_leaves_store_unchanged (r : rateLimiter) (s : Store) (key : String)
    (t1 t2 : ℚ) (h : (Allow r s key t1 t2).1 = false) :
    (Allow r s key t1 t2).2 = s := by
  by_cases hb : r.burstSize = 0
  · simp [Allow, hb]
  · simp only [Allow, if_neg hb] at h ⊢
    cases hl : SyncMap.Load s key with
    | none => simp [hl] at h
    | some buck =>
      simp only [hl] at h ⊢
      cases hc : tryConsume r buck t2 with
      | none => simp [hc]
      | some nb => simp [hc] at h

/-- Witness for `deny_leaves_store_unchanged`: a key whose bucket is empty
under `tokenRate = 0` is denied and its bucket (with its `lastActivity`)
survives untouched. -/
theorem deny_leaves_store_unchanged_w :
    (Allow ⟨0, 1⟩ [("k", ⟨0, 0, 0⟩)] "k" 5 5).2 = [("k", ⟨0, 0, 0⟩)] :=
  deny_leaves_store_unchanged ⟨0, 1⟩ [("k", ⟨0, 0, 0⟩)] "k" 5 5
    (by with_unfolding_all decide)

/-! ## C6: fresh-key creation -/

/-- C6.  With `burstSize ≥ 1` and the key absent, the loop body builds the
fresh bucket `{tokens = burstSize − 1, lastRefill = lastActivity = t}` from
the sampled time `t` (first conjunct); `LoadOrStore` on a still-absent key
stores it and the creator returns `true` immediately (second conjunct); and if
another writer inserted first, the winner's value becomes the current snapshot
(third conjunct). -/
theorem fresh_key_creation :
    (∀ (r : rateLimiter) (s : Store) (key : String) (t : ℚ) (fuel : Nat),
      r.burstSize ≠ 0 → SyncMap.Load s key = none →
      stepThread r s key t (.running (fuel + 1)) =
        (.creating ⟨r.burstSize - 1, t, t⟩ (fuel + 1), s)) ∧
    (∀ (r : rateLimiter) (s : Store) (key : String) (t : ℚ) (fresh : bucket) (fuel : Nat),
      SyncMap.Load s key = none →
      stepThread r s key t (.creating fresh fuel) = (.finished true, (key, fresh) :: s)) ∧
    (∀ (r : rateLimiter) (s : Store) (key : String) (t : ℚ) (fresh b : bucket) (fuel : Nat),
      SyncMap.Load s key = some b →
      stepThread r s key t (.creating fresh fuel) = (.loaded b fuel, s)) := by
  refine ⟨?_, ?_, ?_⟩
  · intro r s key t fuel hb hl
    simp [stepThread, hb, hl]
  · intro r s key t fresh fuel hl
    simp [stepThread, SyncMap.LoadOrStore, hl]
  · intro r s key t fresh b fuel hl
    simp [stepThread, SyncMap.LoadOrStore, hl]

/-- Witness for `fresh_key_creation`: a first call on an empty store with
`burstSize = 2`, and a lost insertion race against a winner holding one
token. -/
theorem fresh_key_creation_w :
    stepThread ⟨0, 2⟩ [] "k" 3 (.running 100) = (.creating ⟨1, 3, 3⟩ 100, []) ∧
    stepThread ⟨0, 2⟩ [] "k" 3 (.creating ⟨1, 3, 3⟩ 100) =
      (.finished true, [("k", ⟨1, 3, 3⟩)]) ∧
    stepThread ⟨0, 2⟩ [("k", ⟨1, 3, 3⟩)] "k" 4 (.creating ⟨1, 4, 4⟩ 100) =
      (.loaded ⟨1, 3, 3⟩ 100, [("k", ⟨1, 3, 3⟩)]) :=
  ⟨fresh_key_creation.1 ⟨0, 2⟩ [] "k" 3 99 (by decide) (by with_unfolding_all decide),
   fresh_key_creation.2.1 ⟨0, 2⟩ [] "k" 3 ⟨1, 3, 3⟩ 100 (by with_unfolding_all decide),
   fresh_key_creation.2.2 ⟨0, 2⟩ [("k", ⟨1, 3, 3⟩)] "k" 4 ⟨1, 4, 4⟩ ⟨1, 3, 3⟩ 100
     (by with_unfolding_all decide)⟩

/-! ## C5: `lastRefill` moves exactly when the token count changed -/

/-- When the recomputed token count is positive, the refill/consume step of
`Allow` consumes one token, stamps `lastActivity` with `now`, and moves
`lastRefill` to `now` exactly when the token count changed. -/
theorem tryConsume_of_pos (r : rateLimiter) (b : bucket) (t : ℚ)
    (hc : 0 < newTokens r b t) :
    tryConsume r b t =
      some ⟨newTokens r b t - 1,
        if newTokens r b t = b.tokens then b.lastRefill else t, t⟩ := by
  by_cases heq : b.tokens = newTokens r b t
  · have hrb : refill r b t = b := by rw [refill_def, if_pos heq]
    rw [tryConsume_def, hrb, if_pos (show 0 < b.tokens by rw [heq]; exact hc)]
    rw [if_pos heq.symm, heq]
  · have hrb : refill r b t = ⟨newTokens r b t, t, b.lastActivity⟩ := by
      rw [refill_def, if_neg heq]
    rw [tryConsume_def, hrb]
    rw [if_pos hc, if_neg fun h => heq h.symm]

/-- C5.  During the refill inside an allowed `Allow` call on a present key,
the written-back bucket keeps the old `lastRefill` when the recomputed token
count `min(burstSize, floor(tokenRate·elapsed) + oldTokens)` equals the old
token count, and gets `lastRefill = now` when it differs (the `if buck.tokens
!= newTokens` guard of lines 112–115); the call returns `true` and consumes
one of the recomputed tokens. -/
theorem refill_time_updated_iff_tokens_changed (r : rateLimiter) (s : Store)
    (key : String) (b : bucket) (t1 t2 : ℚ) (hb : SyncMap.Load s key = some b)
    (hc : 0 < newTokens r b t2) :
    (Allow r s key t1 t2).1 = true ∧
    SyncMap.Load (Allow r s key t1 t2).2 key =
      some ⟨newTokens r b t2 - 1,
        if newTokens r b t2 = b.tokens then b.lastRefill else t2, t2⟩ := by
  have hbs : r.burstSize ≠ 0 := by
    have h1 : newTokens r b t2 ≤ r.burstSize := min_le_left _ _
    omega
  have hcon := tryConsume_of_pos r b t2 hc
  constructor
  · simp [Allow, hbs, hb, hcon]
  · simp only [Allow, if_neg hbs, hb, hcon]
    simp only [SyncMap.CompareAndSwap, hb, if_pos rfl]
    exact SyncMap.Load_replace_self hb

/-- Witness for `refill_time_updated_iff_tokens_changed`: one second at
`tokenRate = 1` grants a token to an empty bucket, so `lastRefill` moves to
`now` and the call is allowed. -/
theorem refill_time_updated_iff_tokens_changed_w :
    (Allow ⟨1, 2⟩ [("k", ⟨0, 0, 0⟩)] "k" 1 1).1 = true ∧
    SyncMap.Load (Allow ⟨1, 2⟩ [("k", ⟨0, 0, 0⟩)] "k" 1 1).2 "k" =
      some ⟨newTokens ⟨1, 2⟩ ⟨0, 0, 0⟩ 1 - 1,
        if newTokens ⟨1, 2⟩ ⟨0, 0, 0⟩ 1 = (0 : Nat) then (0 : ℚ) else 1, 1⟩ :=
  refill_time_updated_iff_tokens_changed ⟨1, 2⟩ [("k", ⟨0, 0, 0⟩)] "k"
    ⟨0, 0, 0⟩ 1 1 (by with_unfolding_all decide) (by with_unfolding_all decide)

/-! ## C9: construction-time validation -/

/-- C9.  `New(tokenRate, burstSize)` (with `burstSize` in `uint` range)
succeeds exactly when `tokenRate` is non-negative and
`tokenRate·5000 + burstSize` does not exceed `math.MaxUint`, the unsigned
width used for token arithmetic: a negative rate errors, a combination just
over the overflow boundary errors, and one just under it succeeds. -/
theorem New_ok_iff_no_overflow (r : ℚ) (b : Nat) (hb : b ≤ maxUint) :
    (∃ L, New r b = Except.ok L) ↔
      0 ≤ r ∧ r * 5000 + (b : ℚ) ≤ (maxUint : ℚ) := by
  have hcast : ((maxUint - b : Nat) : ℚ) = (maxUint : ℚ) - (b : ℚ) := Nat.cast_sub hb
  have h5 : (0 : ℚ) < 5000 := by norm_num
  have hbq : (0 : ℚ) ≤ (b : ℚ) := Nat.cast_nonneg b
  have hex : (∃ L, New r b = Except.ok L) ↔ validate r b = none := by
    unfold New
    cases hv : validate r b <;> simp
  rw [hex]
  unfold validate
  split_ifs with h1 h2 h3
  · constructor
    · intro h; simp at h
    · rintro ⟨h0, -⟩; exact absurd h1 (not_lt.mpr h0)
  · constructor
    · intro h; simp at h
    · rintro ⟨-, hle⟩
      have hr5 : r * 5000 ≤ (maxUint : ℚ) := le_trans (le_add_of_nonneg_right hbq) hle
      exact absurd hr5 (not_le.mpr h2)
  · constructor
    · intro h; simp at h
    · rintro ⟨-, hle⟩
      rw [hcast, div_lt_iff₀ h5] at h3
      linarith
  · rw [hcast] at h3
    rw [div_lt_iff₀ h5] at h3
    push_neg at h3
    exact ⟨fun _ => ⟨not_lt.mp h1, by linarith⟩, fun _ => rfl⟩

/-- Witness for `New_ok_iff_no_overflow`: `New(1, 5)` is well inside the
boundary. -/
theorem New_ok_iff_no_overflow_w :
    (∃ L, New 1 5 = Except.ok L) ↔
      0 ≤ (1 : ℚ) ∧ (1 : ℚ) * 5000 + ((5 : Nat) : ℚ) ≤ ((maxUint : Nat) : ℚ) :=
  New_ok_iff_no_overflow 1 5 (by decide)

/-! ## C1: `New(0, N)` grants exactly the first N sequential allows -/

theorem runCalls_cons (r : rateLimiter) (key : String) (s : Store) (tt : ℚ × ℚ)
    (ts : List (ℚ × ℚ)) :
    runCalls r key s (tt :: ts) =
      (Allow r s key tt.1 tt.2).1 ::
        runCalls r key (Allow r s key tt.1 tt.2).2 ts := rfl

theorem Load_singleton (k : String) (b : bucket) :
    SyncMap.Load [(k, b)] k = some b := by
  simp [SyncMap.Load]

/-- With `tokenRate = 0` the refill grants `floor(0·elapsed) = 0` tokens. -/
theorem newTokens_zero_rate (N m : Nat) (lr la t : ℚ) :
    newTokens ⟨0, N⟩ ⟨m, lr, la⟩ t = min N m := by
  simp [newTokens, uintOfFloat]

/-- A rate-zero `Allow` on a bucket that still holds tokens consumes one. -/
theorem allow_zero_rate_pos (N m : Nat) (lr la t1 t2 : ℚ) (key : String)
    (hm : m + 1 ≤ N) :
    Allow ⟨0, N⟩ [(key, ⟨m + 1, lr, la⟩)] key t1 t2 =
      (true, [(key, ⟨m, lr, t2⟩)]) := by
  have hbs : (rateLimiter.mk 0 N).burstSize ≠ 0 := by simp; omega
  have hnt : newTokens ⟨0, N⟩ ⟨m + 1, lr, la⟩ t2 = m + 1 := by
    rw [newTokens_zero_rate]; omega
  have hrb : refill ⟨0, N⟩ ⟨m + 1, lr, la⟩ t2 = ⟨m + 1, lr, la⟩ := by
    rw [refill_def, if_pos]; rw [hnt]
  have hcon : tryConsume ⟨0, N⟩ ⟨m + 1, lr, la⟩ t2 = some ⟨m, lr, t2⟩ := by
    rw [tryConsume_def, hrb]; simp
  simp only [Allow, if_neg hbs, Load_singleton, hcon]
  simp [SyncMap.CompareAndSwap, Load_singleton, SyncMap.replace]

/-- A rate-zero `Allow` on an empty bucket denies and leaves it alone. -/
theorem allow_zero_rate_zero (N : Nat) (lr la t1 t2 : ℚ) (key : String)
    (hN : N ≠ 0) :
    Allow ⟨0, N⟩ [(key, ⟨0, lr, la⟩)] key t1 t2 =
      (false, [(key, ⟨0, lr, la⟩)]) := by
  have hbs : (rateLimiter.mk 0 N).burstSize ≠ 0 := by simpa using hN
  have hrb : refill ⟨0, N⟩ ⟨0, lr, la⟩ t2 = ⟨0, lr, la⟩ := by
    rw [refill_def, if_pos]; rw [newTokens_zero_rate]; simp
  have hcon : tryConsume ⟨0, N⟩ ⟨0, lr, la⟩ t2 = none := by
    rw [tryConsume_def, hrb]; simp
  simp only [Allow, if_neg hbs, Load_singleton, hcon]

/-- Sequential rate-zero calls against a bucket holding `m ≤ N` tokens: the
first `m` calls are allowed, everything after denies. -/
theorem runCalls_zero_rate (N : Nat) (key : String) :
    ∀ (ts : List (ℚ × ℚ)) (m : Nat) (lr la : ℚ), m ≤ N → N ≠ 0 →
      runCalls ⟨0, N⟩ key [(key, ⟨m, lr, la⟩)] ts =
        (List.range ts.length).map fun i => decide (i < m) := by
  intro ts
  induction ts with
  | nil => intro m lr la _ _; rfl
  | cons tt ts ih =>
    intro m lr la hm hN
    cases m with
    | zero =>
      rw [runCalls_cons, allow_zero_rate_zero N lr la tt.1 tt.2 key hN]
      rw [ih 0 lr la (Nat.zero_le N) hN]
      rw [List.length_cons, List.range_succ_eq_map, List.map_cons, List.map_map]
      simp
    | succ m =>
      rw [runCalls_cons, allow_zero_rate_pos N m lr la tt.1 tt.2 key hm]
      rw [ih m lr tt.2 (by omega) hN]
      rw [List.length_cons, List.range_succ_eq_map, List.map_cons, List.map_map]
      refine congrArg₂ _ (by simp) ?_
      exact List.map_congr_left fun i _ => by
        simp [Function.comp, Nat.succ_lt_succ_iff]

/-- C1.  With `New(0, N)` (`N ≥ 1`) and no eviction, a single key's
sequential `Allow` calls — at arbitrary times — are allowed exactly while
fewer than `N` calls have happened: call `i` (0-based) returns `i < N`.
A `tokenRate` of `0` grants no refill, so the initial burst is all there is. -/
theorem rate_zero_first_burst_allows (N : Nat) (key : String)
    (ts : List (ℚ × ℚ)) (hN : 1 ≤ N) :
    runCalls ⟨0, N⟩ key [] ts =
      (List.range ts.length).map fun i => decide (i < N) := by
  cases ts with
  | nil => rfl
  | cons tt ts =>
    have hfresh : Allow ⟨0, N⟩ [] key tt.1 tt.2 =
        (true, [(key, ⟨N - 1, tt.1, tt.1⟩)]) := by
      simp [Allow, SyncMap.Load, SyncMap.LoadOrStore, show N ≠ 0 by omega]
    rw [runCalls_cons, hfresh]
    rw [runCalls_zero_rate N key ts (N - 1) tt.1 tt.1 (Nat.sub_le N 1) (by omega)]
    rw [List.length_cons, List.range_succ_eq_map, List.map_cons, List.map_map]
    refine congrArg₂ _ (by simp [hN]; omega) ?_
    exact List.map_congr_left fun i _ => by
      simp only [Function.comp]
      exact decide_eq_decide.mpr (by omega)

/-- Witness for `rate_zero_first_burst_allows`: `New(0, 2)`, three calls —
allow, allow, deny. -/
theorem rate_zero_first_burst_allows_w :
    runCalls ⟨0, 2⟩ "k" [] [(0, 0), (1, 1), (2, 2)] =
      (List.range (List.length [((0 : ℚ), (0 : ℚ)), (1, 1), (2, 2)])).map
        fun i => decide (i < 2) :=
  rate_zero_first_burst_allows 2 "k" [(0, 0), (1, 1), (2, 2)] (by decide)

/-! ## C2: `0 ≤ tokens ≤ burstSize` for every stored bucket -/

theorem tryConsume_eq_some {r : rateLimiter} {b nb : bucket} {t : ℚ}
    (h : tryConsume r b t = some nb) :
    nb.tokens = (refill r b t).tokens - 1 ∧ 0 < (refill r b t).tokens := by
  rw [tryConsume_def] at h
  split_ifs at h with h0
  · cases h
    exact ⟨rfl, h0⟩

theorem refill_tokens_le {r : rateLimiter} {b : bucket} {t : ℚ}
    (hb : b.tokens ≤ r.burstSize) : (refill r b t).tokens ≤ r.burstSize := by
  rw [refill_def]
  split_ifs with h
  · exact hb
  · exact min_le_left _ _

theorem stepThread_store_bound (r : rateLimiter) (s : Store) (key : String)
    (t : ℚ) (ph : TPhase) (hs : ∀ p ∈ s, p.2.tokens ≤ r.burstSize)
    (hph : ∀ fresh fuel, ph = TPhase.creating fresh fuel → fresh.tokens ≤ r.burstSize) :
    ∀ p ∈ (stepThread r s key t ph).2, p.2.tokens ≤ r.burstSize := by
  cases ph with
  | running fuel =>
    cases fuel with
    | zero => exact hs
    | succ fuel =>
      by_cases hb : r.burstSize = 0
      · simpa [stepThread, hb] using hs
      · cases hl : SyncMap.Load s key with
        | none => simpa [stepThread, hb, hl] using hs
        | some b => simpa [stepThread, hb, hl] using hs
  | creating fresh fuel =>
    cases hl : SyncMap.Load s key with
    | none =>
      simp only [stepThread, SyncMap.LoadOrStore, hl]
      intro p hp
      rcases List.mem_cons.mp hp with h | h
      · subst h
        exact hph fresh fuel rfl
      · exact hs p h
    | some b => simpa [stepThread, SyncMap.LoadOrStore, hl] using hs
  | loaded snap fuel =>
    cases hc : tryConsume r snap t with
    | none => simpa [stepThread, hc] using hs
    | some nb =>
      cases hl : SyncMap.Load s key with
      | none => simpa [stepThread, hc, SyncMap.CompareAndSwap, hl] using hs
      | some cur =>
        by_cases hcur : cur = snap
        · simp only [stepThread, hc, SyncMap.CompareAndSwap, hl, if_pos hcur]
          intro p hp
          rcases SyncMap.mem_replace hp with h | h
          · subst h
            have hsnap : snap.tokens ≤ r.burstSize := by
              rw [← hcur]
              exact hs _ (SyncMap.Load_mem hl)
            obtain ⟨hnb, -⟩ := tryConsume_eq_some hc
            have hrt : (refill r snap t).tokens ≤ r.burstSize := refill_tokens_le hsnap
            show nb.tokens ≤ r.burstSize
            omega
          · exact hs p h
        · simpa [stepThread, hc, SyncMap.CompareAndSwap, hl, hcur] using hs
  | finished res => exact hs

theorem stepThread_phase_bound (r : rateLimiter) (s : Store) (key : String)
    (t : ℚ) (ph : TPhase)
    (hph : ∀ fresh fuel, ph = TPhase.creating fresh fuel → fresh.tokens ≤ r.burstSize) :
    ∀ fresh fuel, (stepThread r s key t ph).1 = TPhase.creating fresh fuel →
      fresh.tokens ≤ r.burstSize := by
  cases ph with
  | running fuel =>
    cases fuel with
    | zero => intro fresh fuel h; simp [stepThread] at h
    | succ fuel =>
      by_cases hb : r.burstSize = 0
      · intro fresh fuel h; simp [stepThread, hb] at h
      · cases hl : SyncMap.Load s key with
        | none =>
          intro fresh fuel h
          simp only [stepThread, if_neg hb, hl] at h
          cases h
          exact Nat.sub_le _ _
        | some b => intro fresh fuel h; simp [stepThread, hb, hl] at h
  | creating fresh fuel =>
    cases hl : SyncMap.Load s key with
    | none => intro fresh' fuel' h; simp [stepThread, SyncMap.LoadOrStore, hl] at h
    | some b => intro fresh' fuel' h; simp [stepThread, SyncMap.LoadOrStore, hl] at h
  | loaded snap fuel =>
    cases hc : tryConsume r snap t with
    | none => intro fresh fuel h; simp [stepThread, hc] at h
    | some nb =>
      cases hl : SyncMap.Load s key with
      | none => intro fresh fuel h; simp [stepThread, hc, SyncMap.CompareAndSwap, hl] at h
      | some cur =>
        by_cases hcur : cur = snap
        · intro fresh fuel h
          simp [stepThread, hc, SyncMap.CompareAndSwap, hl, hcur] at h
        · intro fresh fuel h
          simp [stepThread, hc, SyncMap.CompareAndSwap, hl, hcur] at h
  | finished res => intro fresh fuel h; simp [stepThread] at h

theorem stepC_bounded (r : rateLimiter) (c : CState) (ev : Nat × ℚ)
    (h : StoreBounded r c) : StoreBounded r (stepC r c ev) := by
  obtain ⟨hs, hth⟩ := h
  unfold stepC
  cases hget : c.threads.get? ev.1 with
  | none => exact ⟨hs, hth⟩
  | some th =>
    have hmem : th ∈ c.threads := List.get?_mem hget
    constructor
    · exact stepThread_store_bound r c.store th.key ev.2 th.ph hs
        (fun fresh fuel hf => hth th hmem fresh fuel hf)
    · intro th' hth' fresh fuel hf
      rcases List.mem_or_eq_of_mem_set hth' with h' | h'
      · exact hth th' h' fresh fuel hf
      · subst h'
        exact stepThread_phase_bound r c.store th.key ev.2 th.ph
          (fun fresh fuel hf => hth th hmem fresh fuel hf) fresh fuel hf

theorem runC_bounded (r : rateLimiter) (sched : List (Nat × ℚ)) (c : CState)
    (h : StoreBounded r c) : StoreBounded r (runC r c sched) := by
  induction sched generalizing c with
  | nil => exact h
  | cons ev sched ih => exact ih _ (stepC_bounded r c ev h)

theorem initC_bounded (r : rateLimiter) (ks : List String) :
    StoreBounded r (initC ks) := by
  constructor
  · intro p hp; simp [initC] at hp
  · intro th hth fresh fuel hf
    simp only [initC, List.mem_map] at hth
    obtain ⟨k, -, hk⟩ := hth
    rw [← hk] at hf
    simp at hf

/-- C2.  First conjunct: in every machine state reachable from a fresh
limiter, under any schedule of interleaved `Allow` calls on any keys, every
bucket stored in the map satisfies `0 ≤ tokens ≤ burstSize`.  Second
conjunct: every single machine operation — fresh-bucket creation via
`LoadOrStore`, the refill/consume computation, and the `CompareAndSwap`
write-back — preserves that invariant (together with the bound on the
candidate bucket an in-flight creation carries). -/
theorem tokens_le_burst_invariant :
    (∀ (r : rateLimiter) (ks : List String) (sched : List (Nat × ℚ)),
      ∀ p ∈ (runC r (initC ks) sched).store,
        0 ≤ p.2.tokens ∧ p.2.tokens ≤ r.burstSize) ∧
    (∀ (r : rateLimiter) (c : CState) (ev : Nat × ℚ),
      StoreBounded r c → StoreBounded r (stepC r c ev)) := by
  constructor
  · intro r ks sched p hp
    exact ⟨Nat.zero_le _, (runC_bounded r sched _ (initC_bounded r ks)).1 p hp⟩
  · exact stepC_bounded

/-- Witness for `tokens_le_burst_invariant`: a burst-1 limiter after a
creation step, and one explicit machine step from that state. -/
theorem tokens_le_burst_invariant_w :
    (0 ≤ (bucket.mk 0 0 0).tokens ∧ (bucket.mk 0 0 0).tokens ≤ 1) ∧
    (bucket.mk 0 0 0).tokens ≤ 1 :=
  ⟨tokens_le_burst_invariant.1 ⟨0, 1⟩ ["k"] [(0, 0), (0, 0)] ("k", ⟨0, 0, 0⟩)
      (by with_unfolding_all decide),
   (tokens_le_burst_invariant.2 ⟨0, 1⟩
        ⟨[("k", ⟨0, 0, 0⟩)], [⟨"k", TPhase.running 100⟩]⟩ (0, 0)
        ⟨by with_unfolding_all decide, by
          intro th hth fresh fuel heq
          rw [List.mem_singleton] at hth
          subst hth
          simp at heq⟩).1
      ("k", ⟨0, 0, 0⟩) (by with_unfolding_all decide)⟩

/-! ## C3: N concurrent `Allow` calls on one fresh key

The interleaving machine runs `N` calls, all on the same key `k`, against an
empty store, under an arbitrary schedule.  The invariant `InvC` below is what
makes the accounting work: every successful write (the winning `LoadOrStore`
of the creator, or a winning `CompareAndSwap`) is paired with one call
returning `true`, the stored token count never drops by more than one per
write, and a call can only lose a `CompareAndSwap` when some other call's
write landed in between — which bounds the retries any call can suffer by the
number of other calls. -/

theorem countP_lt_length_of_mem {α : Type} {p : α → Bool} {a : α} {l : List α}
    (ha : a ∈ l) (hpa : p a = false) : l.countP p < l.length := by
  induction l with
  | nil => cases ha
  | cons x l ih =>
    rw [List.countP_cons, List.length_cons]
    rcases List.mem_cons.mp ha with h | h
    · subst h
      have := List.countP_le_length (p := p) (l := l)
      simp [hpa]
      omega
    · have hl := ih h
      cases hpx : p x <;> simp [hpx] <;> omega

theorem countAllows_lt_of_mem {ths : List Thread} {th : Thread} (hmem : th ∈ ths)
    (h : th.ph ≠ TPhase.finished true) : countAllows ths < ths.length :=
  countP_lt_length_of_mem hmem (decide_eq_false h)

theorem getElem_of_get? {ths : List Thread} {i : Nat} {th : Thread}
    (hget : ths.get? i = some th) : ∃ hlt : i < ths.length, ths[i] = th := by
  obtain ⟨hlt, hg⟩ := List.get?_eq_some.mp hget
  exact ⟨hlt, hg⟩

theorem countAllows_set_congr {ths : List Thread} {i : Nat} {th th' : Thread}
    (hget : ths.get? i = some th)
    (hiff : th'.ph = TPhase.finished true ↔ th.ph = TPhase.finished true) :
    countAllows (ths.set i th') = countAllows ths := by
  obtain ⟨hlt, hth⟩ := getElem_of_get? hget
  have hd : decide (th'.ph = TPhase.finished true) =
      decide (th.ph = TPhase.finished true) := decide_eq_decide.mpr hiff
  unfold countAllows
  rw [List.countP_set _ _ _ _ hlt, hth, hd]
  cases h1 : decide (th.ph = TPhase.finished true) with
  | false => simp
  | true =>
    have hle := List.boole_getElem_le_countP
      (fun th => decide (th.ph = TPhase.finished true)) ths i hlt
    rw [hth, h1] at hle
    have hone : (if (true : Bool) = true then (1 : Nat) else 0) = 1 := rfl
    rw [hone] at hle ⊢
    omega

theorem countAllows_set_succ {ths : List Thread} {i : Nat} {th th' : Thread}
    (hget : ths.get? i = some th) (hold : th.ph ≠ TPhase.finished true)
    (hnew : th'.ph = TPhase.finished true) :
    countAllows (ths.set i th') = countAllows ths + 1 := by
  obtain ⟨hlt, hth⟩ := getElem_of_get? hget
  unfold countAllows
  rw [List.countP_set _ _ _ _ hlt, hth, decide_eq_false hold, decide_eq_true hnew]
  simp

theorem stepC_eq {r : rateLimiter} {c : CState} {ev : Nat × ℚ} {th : Thread}
    (hget : c.threads.get? ev.1 = some th) :
    stepC r c ev =
      ⟨(stepThread r c.store th.key ev.2 th.ph).2,
        c.threads.set ev.1 ⟨th.key, (stepThread r c.store th.key ev.2 th.ph).1⟩⟩ := by
  unfold stepC
  rw [hget]

/-- A phase invariant survives the creation write (store `[] → [(k, fresh)]`,
allow count `A → A + 1`). -/
theorem phaseInv_after_create {N : Nat} {k : String} {fresh : bucket} {A : Nat}
    (ph : TPhase) (hp : PhaseInv N k [] A ph) :
    PhaseInv N k [(k, fresh)] (A + 1) ph := by
  cases ph with
  | running fuel =>
    refine ⟨fun h => (nomatch h), fun _ => ?_⟩
    have h1 := hp.1 rfl
    omega
  | creating fresh' fuel => exact hp
  | loaded snap fuel =>
    obtain ⟨⟨b, hb⟩, -, -, -, -⟩ := hp
    exact nomatch hb
  | finished res => exact hp

/-- A phase invariant survives a successful `CompareAndSwap` write (store
`[(k, b0)] → [(k, nb)]`, allow count `A → A + 1`). -/
theorem phaseInv_after_write {N : Nat} {k : String} {b0 nb : bucket} {A : Nat}
    (ph : TPhase) (hp : PhaseInv N k [(k, b0)] A ph) :
    PhaseInv N k [(k, nb)] (A + 1) ph := by
  cases ph with
  | running fuel =>
    refine ⟨fun h => (nomatch h), fun _ => ?_⟩
    have h1 := hp.2 (fun h => nomatch h)
    omega
  | creating fresh fuel => exact hp
  | loaded snap fuel =>
    obtain ⟨-, hEq, hNe, hstok, hfuel⟩ := hp
    have hbase : maxCASRetries + 1 ≤ fuel + A := by
      by_cases hbs : ([(k, b0)] : Store) = [(k, snap)]
      · exact hEq hbs
      · have := hNe hbs
        omega
    refine ⟨⟨nb, rfl⟩, fun _ => by omega, fun _ => by omega, by omega, hfuel⟩
  | finished res => exact hp

/-- One machine step preserves the global invariant, as long as the number of
calls (= burst size) does not exceed `maxCASRetries + 1`. -/
theorem invC_step (rate : ℚ) (N : Nat) (k : String) (c : CState) (ev : Nat × ℚ)
    (hN : N ≤ maxCASRetries + 1) (h : InvC N k c) :
    InvC N k (stepC ⟨rate, N⟩ c ev) := by
  obtain ⟨hlen, hkeys, hstore, hph⟩ := h
  have hM : (1 : Nat) ≤ maxCASRetries := by decide
  cases hget : c.threads.get? ev.1 with
  | none =>
    unfold stepC
    rw [hget]
    exact ⟨hlen, hkeys, hstore, hph⟩
  | some th =>
    obtain ⟨key0, ph0⟩ := th
    have hmem : (⟨key0, ph0⟩ : Thread) ∈ c.threads := List.get?_mem hget
    have hkey : k = key0 := (hkeys _ hmem).symm
    subst hkey
    have hN0 : 0 < N := by
      rw [← hlen]
      exact List.length_pos.mpr (List.ne_nil_of_mem hmem)
    have hlen' : ∀ ph' : TPhase, (c.threads.set ev.1 ⟨k, ph'⟩).length = N := by
      intro ph'
      rw [List.length_set]
      exact hlen
    have hkeys' : ∀ ph' : TPhase, ∀ th' ∈ c.threads.set ev.1 ⟨k, ph'⟩, th'.key = k := by
      intro ph' th' hth'
      rcases List.mem_or_eq_of_mem_set hth' with h' | h'
      · exact hkeys _ h'
      · subst h'
        rfl
    rw [stepC_eq hget]
    dsimp only
    cases ph0 with
    | running fuel =>
      have hpi := hph _ hmem
      cases fuel with
      | zero =>
        exfalso
        have hAlt : countAllows c.threads < N := by
          have h1 := countAllows_lt_of_mem hmem (by simp)
          rw [hlen] at h1
          exact h1
        rcases hstore with ⟨hse, hA0⟩ | ⟨b0, hsb, hbtok, hble, hA1⟩
        · have h1 := hpi.1 hse
          simp [maxCASRetries] at h1
        · have h2 := hpi.2 (by rw [hsb]; exact fun hh => (nomatch hh))
          omega
      | succ fuel =>
        have hbne : ¬ ((⟨rate, N⟩ : rateLimiter).burstSize = 0) := by
          show ¬ (N = 0)
          omega
        rcases hstore with ⟨hse, hA0⟩ | ⟨b0, hsb, hbtok, hble, hA1⟩
        · -- store still empty: this call moves to the creation attempt
          have hload : SyncMap.Load c.store k = none := by rw [hse]; rfl
          have hstep : stepThread ⟨rate, N⟩ c.store k ev.2 (.running (fuel + 1)) =
              (.creating ⟨N - 1, ev.2, ev.2⟩ (fuel + 1), c.store) := by
            simp [stepThread, hbne, hload]
          rw [hstep]
          have hA' : countAllows
              (c.threads.set ev.1 ⟨k, .creating ⟨N - 1, ev.2, ev.2⟩ (fuel + 1)⟩) =
              countAllows c.threads :=
            countAllows_set_congr hget (by simp)
          refine ⟨hlen' _, hkeys' _, ?_, ?_⟩
          · rw [hA']
            exact Or.inl ⟨hse, hA0⟩
          · intro th' hth'
            rcases List.mem_or_eq_of_mem_set hth' with h' | h'
            · rw [hA']
              exact hph _ h'
            · subst h'
              rw [hA']
              exact ⟨rfl, hpi.1 hse⟩
        · -- store populated: take the snapshot
          have hload : SyncMap.Load c.store k = some b0 := by
            rw [hsb]; simp [SyncMap.Load]
          have hstep : stepThread ⟨rate, N⟩ c.store k ev.2 (.running (fuel + 1)) =
              (.loaded b0 (fuel + 1), c.store) := by
            simp [stepThread, hbne, hload]
          rw [hstep]
          have hA' : countAllows (c.threads.set ev.1 ⟨k, .loaded b0 (fuel + 1)⟩) =
              countAllows c.threads :=
            countAllows_set_congr hget (by simp)
          refine ⟨hlen' _, hkeys' _, ?_, ?_⟩
          · rw [hA']
            exact Or.inr ⟨b0, hsb, hbtok, hble, hA1⟩
          · intro th' hth'
            rcases List.mem_or_eq_of_mem_set hth' with h' | h'
            · rw [hA']
              exact hph _ h'
            · subst h'
              rw [hA']
              have hne : c.store ≠ [] := by rw [hsb]; exact fun hh => (nomatch hh)
              refine ⟨⟨b0, hsb⟩, fun _ => ?_, fun hne' => absurd hsb hne', hbtok, by omega⟩
              have := hpi.2 hne
              omega
    | creating fresh fuel =>
      obtain ⟨hftok, hfuel⟩ := hph _ hmem
      rcases hstore with ⟨hse, hA0⟩ | ⟨b0, hsb, hbtok, hble, hA1⟩
      · -- the insertion wins: store the fresh bucket, return allow
        have hload : SyncMap.Load c.store k = none := by rw [hse]; rfl
        have hstep : stepThread ⟨rate, N⟩ c.store k ev.2 (.creating fresh fuel) =
            (.finished true, (k, fresh) :: c.store) := by
          simp [stepThread, SyncMap.LoadOrStore, hload]
        rw [hstep]
        have hA' : countAllows (c.threads.set ev.1 ⟨k, .finished true⟩) =
            countAllows c.threads + 1 :=
          countAllows_set_succ hget (by simp) rfl
        refine ⟨hlen' _, hkeys' _, ?_, ?_⟩
        · rw [hA', hse]
          exact Or.inr ⟨fresh, rfl, by omega, by omega, by omega⟩
        · intro th' hth'
          rcases List.mem_or_eq_of_mem_set hth' with h' | h'
          · have hold := hph _ h'
            rw [hse] at hold
            rw [hA', hse]
            exact phaseInv_after_create _ hold
          · subst h'
            exact rfl
      · -- the insertion lost: adopt the winner's value as the snapshot
        have hload : SyncMap.Load c.store k = some b0 := by
          rw [hsb]; simp [SyncMap.Load]
        have hstep : stepThread ⟨rate, N⟩ c.store k ev.2 (.creating fresh fuel) =
            (.loaded b0 fuel, c.store) := by
          simp [stepThread, SyncMap.LoadOrStore, hload]
        rw [hstep]
        have hA' : countAllows (c.threads.set ev.1 ⟨k, .loaded b0 fuel⟩) =
            countAllows c.threads :=
          countAllows_set_congr hget (by simp)
        refine ⟨hlen' _, hkeys' _, ?_, ?_⟩
        · rw [hA']
          exact Or.inr ⟨b0, hsb, hbtok, hble, hA1⟩
        · intro th' hth'
          rcases List.mem_or_eq_of_mem_set hth' with h' | h'
          · rw [hA']
            exact hph _ h'
          · subst h'
            rw [hA']
            exact ⟨⟨b0, hsb⟩, fun _ => by omega, fun hne' => absurd hsb hne',
              hbtok, by omega⟩
    | loaded snap fuel =>
      obtain ⟨⟨bex, hbex⟩, hEqI, hNeI, hstok, hfuel1⟩ := hph _ hmem
      rcases hstore with ⟨hse, hA0⟩ | ⟨b0, hsb, hbtok, hble, hA1⟩
      · exfalso
        rw [hse] at hbex
        exact (nomatch hbex)
      · have hAlt : countAllows c.threads < N := by
          have h1 := countAllows_lt_of_mem hmem (by simp)
          rw [hlen] at h1
          exact h1
        have hntpos : 0 < newTokens ⟨rate, N⟩ snap ev.2 := by
          unfold newTokens
          exact lt_min hN0 (by omega)
        have hcon := tryConsume_of_pos ⟨rate, N⟩ snap ev.2 hntpos
        have hntle : newTokens ⟨rate, N⟩ snap ev.2 ≤ N := min_le_left _ _
        have hload : SyncMap.Load c.store k = some b0 := by
          rw [hsb]; simp [SyncMap.Load]
        by_cases hbs : b0 = snap
        · -- the CompareAndSwap lands: consume the token, return allow
          have hsnapN : snap.tokens ≤ N := by rw [← hbs]; exact hble
          have hntge : snap.tokens ≤ newTokens ⟨rate, N⟩ snap ev.2 := by
            unfold newTokens
            exact le_min hsnapN (Nat.le_add_left _ _)
          have hcas : SyncMap.CompareAndSwap c.store k snap
              ⟨newTokens ⟨rate, N⟩ snap ev.2 - 1,
                if newTokens ⟨rate, N⟩ snap ev.2 = snap.tokens then snap.lastRefill
                else ev.2, ev.2⟩ =
              (true, [(k, ⟨newTokens ⟨rate, N⟩ snap ev.2 - 1,
                if newTokens ⟨rate, N⟩ snap ev.2 = snap.tokens then snap.lastRefill
                else ev.2, ev.2⟩)]) := by
            rw [hsb]
            simp [SyncMap.CompareAndSwap, SyncMap.Load, SyncMap.replace, hbs]
          have hstep : stepThread ⟨rate, N⟩ c.store k ev.2 (.loaded snap fuel) =
              (.finished true, [(k, ⟨newTokens ⟨rate, N⟩ snap ev.2 - 1,
                if newTokens ⟨rate, N⟩ snap ev.2 = snap.tokens then snap.lastRefill
                else ev.2, ev.2⟩)]) := by
            simp [stepThread, hcon, hcas]
          rw [hstep]
          have hA' : countAllows (c.threads.set ev.1 ⟨k, .finished true⟩) =
              countAllows c.threads + 1 :=
            countAllows_set_succ hget (by simp) rfl
          refine ⟨hlen' _, hkeys' _, ?_, ?_⟩
          · rw [hA']
            exact Or.inr ⟨_, rfl, by simp; omega, by simp; omega, by omega⟩
          · intro th' hth'
            rcases List.mem_or_eq_of_mem_set hth' with h' | h'
            · have hold := hph _ h'
              rw [hsb] at hold
              rw [hA']
              exact phaseInv_after_write _ hold
            · subst h'
              exact rfl
        · -- the CompareAndSwap misses: someone else wrote; burn one retry
          have hcas : SyncMap.CompareAndSwap c.store k snap
              ⟨newTokens ⟨rate, N⟩ snap ev.2 - 1,
                if newTokens ⟨rate, N⟩ snap ev.2 = snap.tokens then snap.lastRefill
                else ev.2, ev.2⟩ = (false, c.store) := by
            simp [SyncMap.CompareAndSwap, hload, hbs]
          have hstep : stepThread ⟨rate, N⟩ c.store k ev.2 (.loaded snap fuel) =
              (.running (fuel - 1), c.store) := by
            simp [stepThread, hcon, hcas]
          rw [hstep]
          have hA' : countAllows (c.threads.set ev.1 ⟨k, .running (fuel - 1)⟩) =
              countAllows c.threads :=
            countAllows_set_congr hget (by simp)
          have hnesnap : c.store ≠ [(k, snap)] := by
            rw [hsb]
            simp [hbs]
          refine ⟨hlen' _, hkeys' _, ?_, ?_⟩
          · rw [hA']
            exact Or.inr ⟨b0, hsb, hbtok, hble, hA1⟩
          · intro th' hth'
            rcases List.mem_or_eq_of_mem_set hth' with h' | h'
            · rw [hA']
              exact hph _ h'
            · subst h'
              rw [hA']
              have h2 := hNeI hnesnap
              refine ⟨fun hh => ?_, fun _ => by omega⟩
              rw [hsb] at hh
              exact (nomatch hh)
    | finished res =>
      have hres := hph _ hmem
      have hstep : stepThread ⟨rate, N⟩ c.store k ev.2 (.finished res) =
          (.finished res, c.store) := rfl
      rw [hstep]
      have hA' : countAllows (c.threads.set ev.1 ⟨k, .finished res⟩) =
          countAllows c.threads :=
        countAllows_set_congr hget (by simp)
      refine ⟨hlen' _, hkeys' _, ?_, ?_⟩
      · rw [hA']
        exact hstore
      · intro th' hth'
        rcases List.mem_or_eq_of_mem_set hth' with h' | h'
        · rw [hA']
          exact hph _ h'
        · subst h'
          exact hres

/-- The fresh machine satisfies the invariant. -/
theorem invC_init (N : Nat) (k : String) : InvC N k (initC (List.replicate N k)) := by
  refine ⟨?_, ?_, ?_, ?_⟩
  · simp [initC]
  · intro th hth
    simp only [initC, List.mem_map] at hth
    obtain ⟨k', hk', rfl⟩ := hth
    exact List.eq_of_mem_replicate hk'
  · refine Or.inl ⟨rfl, ?_⟩
    unfold countAllows
    rw [List.countP_eq_zero]
    intro th hth
    simp only [initC, List.mem_map] at hth
    obtain ⟨k', -, rfl⟩ := hth
    simp
  · intro th hth
    simp only [initC, List.mem_map] at hth
    obtain ⟨k', -, rfl⟩ := hth
    exact ⟨fun _ => rfl, fun hne => absurd rfl hne⟩

/-- The invariant holds after any schedule. -/
theorem invC_runC (rate : ℚ) (N : Nat) (k : String) (sched : List (Nat × ℚ))
    (c : CState) (hN : N ≤ maxCASRetries + 1) (h : InvC N k c) :
    InvC N k (runC ⟨rate, N⟩ c sched) := by
  induction sched generalizing c with
  | nil => exact h
  | cons ev sched ih => exact ih _ (invC_step rate N k c ev hN h)

/-- C3 as amended.  For `N ≤ maxCASRetries + 1 = 101` concurrent `Allow`
calls on a single fresh key with `burstSize = N`, under every interleaving
(and arbitrary `now()` readings) no call ever returns deny, so a schedule
that finishes all `N` calls yields exactly `N` allows.  (For `N ≥ 102` this
fails: `concurrent_allows_retry_exhaustion_cex` exhibits an interleaving in
which a call exhausts the 100-iteration retry bound and returns deny while a
token is still available, so only `N − 1` calls are allowed.) -/
theorem concurrent_allows_bounded_retries (N : Nat) (rate : ℚ) (k : String)
    (sched : List (Nat × ℚ)) (hN : N ≤ maxCASRetries + 1) :
    (∀ th ∈ (runC ⟨rate, N⟩ (initC (List.replicate N k)) sched).threads,
      th.ph ≠ TPhase.finished false) ∧
    ((∀ th ∈ (runC ⟨rate, N⟩ (initC (List.replicate N k)) sched).threads,
        th.ph.isFinished = true) →
      countAllows (runC ⟨rate, N⟩ (initC (List.replicate N k)) sched).threads = N) := by
  obtain ⟨hlen, -, -, hph⟩ := invC_runC rate N k sched _ hN (invC_init N k)
  constructor
  · intro th hth hfalse
    have hpinv := hph th hth
    rw [hfalse] at hpinv
    exact Bool.false_ne_true hpinv
  · intro hall
    have hone : countAllows (runC ⟨rate, N⟩ (initC (List.replicate N k)) sched).threads =
        (runC ⟨rate, N⟩ (initC (List.replicate N k)) sched).threads.length := by
      unfold countAllows
      rw [List.countP_eq_length]
      intro th hth
      have hfin := hall th hth
      have hpinv := hph th hth
      cases hph0 : th.ph with
      | running fuel => rw [hph0] at hfin; simp [TPhase.isFinished] at hfin
      | creating fresh fuel => rw [hph0] at hfin; simp [TPhase.isFinished] at hfin
      | loaded snap fuel => rw [hph0] at hfin; simp [TPhase.isFinished] at hfin
      | finished res =>
        rw [hph0] at hpinv
        have hres : res = true := hpinv
        rw [hres]
        simp
    rw [hone, hlen]

/-- Witness for `concurrent_allows_bounded_retries`: one call on a fresh key
with burst 1 creates the bucket and is allowed. -/
theorem concurrent_allows_bounded_retries_w :
    (⟨"k", TPhase.finished true⟩ : Thread).ph ≠ TPhase.finished false ∧
    countAllows (runC ⟨0, 1⟩ (initC (List.replicate 1 "k")) [(0, 0), (0, 0)]).threads = 1 :=
  ⟨(concurrent_allows_bounded_retries 1 0 "k" [(0, 0), (0, 0)] (by decide)).1
      ⟨"k", TPhase.finished true⟩ (by with_unfolding_all decide),
   (concurrent_allows_bounded_retries 1 0 "k" [(0, 0), (0, 0)] (by decide)).2
      (by with_unfolding_all decide)⟩

set_option maxRecDepth 10000 in
/-- Counterexample to C3 as stated.  With `N = 102` concurrent `Allow("k")`
calls and `burstSize = 102` there is an interleaving (`c3CexSched`) under
which every call finishes but only `101` — not `N` — of them return allow:
call 0 loses one `CompareAndSwap` per competing write, exhausts the
100-iteration retry bound, and fail-closes to deny while the store still
holds a token.  So "exactly N calls return allow" does not hold for every N
and every interleaving. -/
theorem concurrent_allows_retry_exhaustion_cex :
    ((runC ⟨0, 102⟩ (initC (List.replicate 102 "k")) c3CexSched).threads.all
        fun th => th.ph.isFinished) = true ∧
    countAllows (runC ⟨0, 102⟩ (initC (List.replicate 102 "k")) c3CexSched).threads = 101 := by
  constructor <;> with_unfolding_all decide

/-! ## C10: `Close` is not idempotent -/

/-- Counterexample to C10.  `Close` is `close(r.done)`; after a first
successful `Close`, a second `Close` hits Go's run-time panic on closing an
already-closed channel, so calling `Close` more than once does crash the
process. -/
theorem Close_twice_panics_cex :
    (Close doneChan.opened).bind Close = Except.error "close of closed channel" := rfl

/-- C10 as amended.  The first `Close` succeeds (and only stops the sweeper);
a second `Close` on the same limiter panics with "close of closed channel":
the cancellation is single-use, not idempotent. -/
theorem Close_once_ok_twice_panics :
    Close doneChan.opened = Except.ok doneChan.closed ∧
    Close doneChan.closed = Except.error "close of closed channel" :=
  ⟨rfl, rfl⟩

end RateLimiter
